import Mathlib

/-!
Shallow embedding of the meshoptimizer interface (src/src/meshoptimizer.hpp).
The repository ships only the interface header; the algorithm bodies are
described by the design specification, so every operation below is modelled
from the spec (§4.1–§4.6) and marked as such in its doc comment.
Index buffers are `List ℕ`, simulated-cache contents are `List ℕ` (oldest
entry first), and ratios (ACMR, percentages) are exact rationals.
-/

namespace Meshopt

/-- Modelled from the spec (§4.2 CacheSimulator, body absent from src/):
one access to the bounded FIFO vertex cache. The queue `q` lists resident
vertex ids oldest first. A resident index is a hit and leaves the queue
untouched; an absent index is a miss, is appended, and the oldest entries
are dropped so that at most `cache_size` ids stay resident (`cache_size = 0`
keeps the queue empty, so every access misses). -/
def cacheStep (cache_size : ℕ) (q : List ℕ) (x : ℕ) : List ℕ × Bool :=
  if x ∈ q then (q, true)
  else ((q ++ [x]).drop (q.length + 1 - cache_size), false)

/-- Modelled from the spec (§4.2, body absent from src/): process the index
sequence left to right through `cacheStep`, recording `true` for a hit and
`false` for a miss. -/
def cacheTrace (cache_size : ℕ) (q : List ℕ) : List ℕ → List Bool
  | [] => []
  | x :: xs =>
    let s := cacheStep cache_size q x
    s.2 :: cacheTrace cache_size s.1 xs

/-- Miss count of a run of the simulated cache. -/
def cacheMisses (cache_size : ℕ) (q : List ℕ) (xs : List ℕ) : ℕ :=
  (cacheTrace cache_size q xs).count false

/-- Mirror of `PostTransformCacheStatistics` (meshoptimizer.hpp line 45),
with the two percentages and the ACMR as exact rationals. -/
structure PostTransformCacheStatistics where
  hits : ℕ
  misses : ℕ
  hit_percent : ℚ
  miss_percent : ℚ
  acmr : ℚ
  deriving Repr, DecidableEq

/-- Modelled from the spec (§4.2 / §6, body absent from src/): the cache
analyzer `analyzePostTransform` (meshoptimizer.hpp lines 55-56). Runs the
FIFO simulation from an empty cache and derives the statistics;
ACMR = misses / (index_count / 3). `vertex_count` only bounds the index
values and does not influence the simulation. -/
def analyzePostTransform (indices : List ℕ) (vertex_count : ℕ)
    (cache_size : ℕ) : PostTransformCacheStatistics :=
  let trace := cacheTrace cache_size [] indices
  let h := trace.count true
  let m := trace.count false
  { hits := h
    misses := m
    hit_percent := (h : ℚ) * 100 / indices.length
    miss_percent := (m : ℚ) * 100 / indices.length
    acmr := (m : ℚ) / (indices.length / 3 : ℕ) }

end Meshopt

namespace Meshopt

/-! ### Basic facts about the cache simulation -/

theorem cacheTrace_length (c : ℕ) (q xs : List ℕ) :
    (cacheTrace c q xs).length = xs.length := by
  induction xs generalizing q with
  | nil => rfl
  | cons x xs ih => simp [cacheTrace, ih]

theorem count_true_add_count_false (l : List Bool) :
    l.count true + l.count false = l.length := by
  induction l with
  | nil => rfl
  | cons b l ih =>
    cases b <;> simp [List.count_cons] <;> omega

theorem cacheMisses_zero (q : List ℕ) (hq : q = []) (xs : List ℕ) :
    cacheMisses 0 q xs = xs.length := by
  subst hq
  induction xs with
  | nil => rfl
  | cons x xs ih =>
    simp only [cacheMisses, cacheTrace, cacheStep] at *
    simp [ih]

/-- The new-distinct-value count is a lower bound on the miss count:
every index value that is in the stream but not resident is missed at
least once. -/
theorem toFinset_sdiff_card_le_cacheMisses (c : ℕ) (xs : List ℕ) :
    ∀ q : List ℕ, (xs.toFinset \ q.toFinset).card ≤ cacheMisses c q xs := by
  induction xs with
  | nil => simp [cacheMisses, cacheTrace]
  | cons x xs ih =>
    intro q
    by_cases hx : x ∈ q
    · have hstep : cacheStep c q x = (q, true) := by simp [cacheStep, hx]
      have : cacheMisses c q (x :: xs) = cacheMisses c q xs := by
        simp [cacheMisses, cacheTrace, hstep]
      rw [this, List.toFinset_cons,
        Finset.insert_sdiff_of_mem _ (List.mem_toFinset.mpr hx)]
      exact ih q
    · have hstep : cacheStep c q x =
          ((q ++ [x]).drop (q.length + 1 - c), false) := by
        simp [cacheStep, hx]
      set q' := (q ++ [x]).drop (q.length + 1 - c) with hq'
      have hm : cacheMisses c q (x :: xs) = cacheMisses c q' xs + 1 := by
        simp [cacheMisses, cacheTrace, hstep, List.count_cons]
      have hsub : (x :: xs).toFinset \ q.toFinset ⊆
          insert x (xs.toFinset \ q'.toFinset) := by
        intro y hy
        rcases Finset.mem_sdiff.mp hy with ⟨hy1, hy2⟩
        have hy1' : y = x ∨ y ∈ xs := by simpa using hy1
        rcases hy1' with h | h
        · exact Finset.mem_insert.mpr (Or.inl h)
        · by_cases hyx : y = x
          · exact Finset.mem_insert.mpr (Or.inl hyx)
          · refine Finset.mem_insert.mpr (Or.inr (Finset.mem_sdiff.mpr
              ⟨List.mem_toFinset.mpr h, fun hyq' => ?_⟩))
            have : y ∈ q ++ [x] := List.drop_subset _ _ (by
              simpa [hq'] using List.mem_toFinset.mp hyq')
            rcases List.mem_append.mp this with h' | h'
            · exact absurd (List.mem_toFinset.mpr h') hy2
            · simp at h'
              exact hyx h'
      calc ((x :: xs).toFinset \ q.toFinset).card
          ≤ (insert x (xs.toFinset \ q'.toFinset)).card :=
            Finset.card_le_card hsub
        _ ≤ (xs.toFinset \ q'.toFinset).card + 1 := Finset.card_insert_le _ _
        _ ≤ cacheMisses c q' xs + 1 := by
            exact Nat.add_le_add_right (ih q') 1
        _ = cacheMisses c q (x :: xs) := hm.symm

/-- When the cache is large enough to hold every distinct index value,
only compulsory misses occur. -/
theorem cacheMisses_eq_of_card_le (c : ℕ) (xs : List ℕ) :
    ∀ q : List ℕ, q.Nodup →
      q.length + (xs.toFinset \ q.toFinset).card ≤ c →
      cacheMisses c q xs = (xs.toFinset \ q.toFinset).card := by
  induction xs with
  | nil => intro q _ _; simp [cacheMisses, cacheTrace]
  | cons x xs ih =>
    intro q hnd hcap
    by_cases hx : x ∈ q
    · have hstep : cacheStep c q x = (q, true) := by simp [cacheStep, hx]
      have hset : (x :: xs).toFinset \ q.toFinset = xs.toFinset \ q.toFinset := by
        rw [List.toFinset_cons, Finset.insert_sdiff_of_mem _ (List.mem_toFinset.mpr hx)]
      have : cacheMisses c q (x :: xs) = cacheMisses c q xs := by
        simp [cacheMisses, cacheTrace, hstep]
      rw [this, hset]
      rw [hset] at hcap
      exact ih q hnd hcap
    · have hxmem : x ∈ (x :: xs).toFinset \ q.toFinset :=
        Finset.mem_sdiff.mpr ⟨by simp, fun h => hx (List.mem_toFinset.mp h)⟩
      have hpos : 1 ≤ ((x :: xs).toFinset \ q.toFinset).card :=
        Finset.card_pos.mpr ⟨x, hxmem⟩
      have hlt : q.length + 1 ≤ c := le_trans (Nat.add_le_add_left hpos _) hcap
      have hdrop : q.length + 1 - c = 0 := Nat.sub_eq_zero_of_le hlt
      have hstep : cacheStep c q x = (q ++ [x], false) := by
        simp [cacheStep, hx, hdrop]
      have hm : cacheMisses c q (x :: xs) = cacheMisses c (q ++ [x]) xs + 1 := by
        simp [cacheMisses, cacheTrace, hstep, List.count_cons]
      have hnd' : (q ++ [x]).Nodup := by
        simp [List.nodup_append, hnd, hx]
      have hqx : (q ++ [x]).toFinset = insert x q.toFinset := by
        ext y; simp [or_comm]
      have hins : (x :: xs).toFinset \ q.toFinset =
          insert x (xs.toFinset \ q.toFinset) := by
        rw [List.toFinset_cons, Finset.insert_sdiff_of_not_mem]
        intro h; exact hx (List.mem_toFinset.mp h)
      have herase : xs.toFinset \ (q ++ [x]).toFinset =
          (xs.toFinset \ q.toFinset).erase x := by
        rw [hqx]
        ext y
        simp only [Finset.mem_sdiff, Finset.mem_insert, Finset.mem_erase, not_or]
        tauto
      have hcard : (insert x (xs.toFinset \ q.toFinset)).card =
          ((xs.toFinset \ q.toFinset).erase x).card + 1 := by
        have h1 : insert x (xs.toFinset \ q.toFinset) =
            insert x ((xs.toFinset \ q.toFinset).erase x) := by
          ext y
          simp only [Finset.mem_insert, Finset.mem_erase]
          constructor
          · rintro (h | h)
            · exact Or.inl h
            · by_cases hyx : y = x
              · exact Or.inl hyx
              · exact Or.inr ⟨hyx, h⟩
          · rintro (h | ⟨_, h⟩)
            · exact Or.inl h
            · exact Or.inr h
        rw [h1, Finset.card_insert_of_not_mem (Finset.not_mem_erase _ _)]
      have hcap' : (q ++ [x]).length +
          (xs.toFinset \ (q ++ [x]).toFinset).card ≤ c := by
        rw [List.length_append, herase]
        have := hcap
        rw [hins, hcard] at this
        simpa [Nat.add_comm, Nat.add_assoc, Nat.add_left_comm] using this
      rw [hm, ih (q ++ [x]) hnd' hcap', herase, hins, hcard]

end Meshopt

namespace Meshopt

/-! ### Claim theorems about the analyzer -/

/-- C3: `analyzePostTransform` processes the indices left to right over a
bounded FIFO queue: a resident index is a hit and leaves the queue
unchanged; an absent index is a miss and is pushed, evicting the oldest
entry when the queue is at capacity; the returned ACMR equals
misses / (index_count / 3); and with `cache_size = 0` every access is a
miss. -/
theorem analyzePostTransform_fifo_spec (c : ℕ) (q : List ℕ) (x : ℕ)
    (xs : List ℕ) (vc : ℕ) :
    (x ∈ q → cacheStep c q x = (q, true)) ∧
    (x ∉ q → q.length < c → cacheStep c q x = (q ++ [x], false)) ∧
    (x ∉ q → q.length = c → 0 < c → cacheStep c q x = (q.tail ++ [x], false)) ∧
    (analyzePostTransform xs vc c).misses = cacheMisses c [] xs ∧
    (analyzePostTransform xs vc c).acmr =
      ((analyzePostTransform xs vc c).misses : ℚ) / ((xs.length / 3 : ℕ) : ℚ) ∧
    (analyzePostTransform xs vc 0).misses = xs.length := by
  refine ⟨?_, ?_, ?_, rfl, rfl, ?_⟩
  · intro h; simp [cacheStep, h]
  · intro h hlen
    have : q.length + 1 - c = 0 := Nat.sub_eq_zero_of_le hlen
    simp [cacheStep, h, this]
  · intro h hlen hc
    have h1 : q.length + 1 - c = 1 := by omega
    have hq : q ≠ [] := by
      intro hq; rw [hq] at hlen; simp at hlen; omega
    have hd : (q ++ [x]).drop 1 = q.tail ++ [x] := by
      rcases q with _ | ⟨a, q⟩
      · exact absurd rfl hq
      · simp
    simp [cacheStep, h, h1, hd]
  · exact cacheMisses_zero [] rfl xs

/-- Witness for `analyzePostTransform_fifo_spec` at concrete inputs. -/
theorem analyzePostTransform_fifo_spec_witness :
    cacheStep 4 [1, 2] 1 = ([1, 2], true) ∧
    cacheStep 4 [1, 2] 3 = ([1, 2, 3], false) ∧
    cacheStep 2 [1, 2] 3 = ([2, 3], false) ∧
    (analyzePostTransform [0, 1, 2] 3 0).misses = 3 :=
  ⟨(analyzePostTransform_fifo_spec 4 [1, 2] 1 [] 0).1 (by decide),
   (analyzePostTransform_fifo_spec 4 [1, 2] 3 [] 0).2.1 (by decide) (by decide),
   (analyzePostTransform_fifo_spec 2 [1, 2] 3 [] 0).2.2.1 (by decide) (by decide)
     (by decide),
   by
     have h := (analyzePostTransform_fifo_spec 0 [] 0 [0, 1, 2] 3).2.2.2.2.2
     simpa using h⟩

/-- C7: on indices [0,1,2, 2,1,3] with vertex_count 4 and cache_size 4 the
analyzer sees miss, miss, miss, hit, hit, miss and returns hits = 2,
misses = 4, acmr = 2. -/
theorem analyzePostTransform_shared_edge_example :
    cacheTrace 4 [] [0, 1, 2, 2, 1, 3] =
      [false, false, false, true, true, false] ∧
    (analyzePostTransform [0, 1, 2, 2, 1, 3] 4 4).hits = 2 ∧
    (analyzePostTransform [0, 1, 2, 2, 1, 3] 4 4).misses = 4 ∧
    (analyzePostTransform [0, 1, 2, 2, 1, 3] 4 4).acmr = 2 := by
  refine ⟨by decide, by decide, by decide, ?_⟩
  show ((4 : ℕ) : ℚ) / (([0, 1, 2, 2, 1, 3].length / 3 : ℕ) : ℚ) = 2
  norm_num

/-- C10: every access is classified as exactly one of hit or miss, so
hits + misses = index_count, and for a nonempty index buffer the two
percentages add to 100. -/
theorem analyzePostTransform_hits_add_misses (xs : List ℕ) (vc c : ℕ) :
    (analyzePostTransform xs vc c).hits + (analyzePostTransform xs vc c).misses
        = xs.length ∧
    (xs.length ≠ 0 →
      (analyzePostTransform xs vc c).hit_percent +
        (analyzePostTransform xs vc c).miss_percent = 100) := by
  have hsum : (analyzePostTransform xs vc c).hits +
      (analyzePostTransform xs vc c).misses = xs.length := by
    show (cacheTrace c [] xs).count true + (cacheTrace c [] xs).count false
        = xs.length
    rw [count_true_add_count_false, cacheTrace_length]
  refine ⟨hsum, fun hn => ?_⟩
  have hq : ((xs.length : ℚ)) ≠ 0 := Nat.cast_ne_zero.mpr hn
  show ((analyzePostTransform xs vc c).hits : ℚ) * 100 / xs.length +
      ((analyzePostTransform xs vc c).misses : ℚ) * 100 / xs.length = 100
  rw [div_add_div_same, ← add_mul]
  rw [show ((analyzePostTransform xs vc c).hits : ℚ) +
        ((analyzePostTransform xs vc c).misses : ℚ) =
      (((analyzePostTransform xs vc c).hits +
        (analyzePostTransform xs vc c).misses : ℕ) : ℚ) by push_cast; ring]
  rw [hsum]
  field_simp

/-- Witness for `analyzePostTransform_hits_add_misses` at a concrete input. -/
theorem analyzePostTransform_hits_add_misses_witness :
    (analyzePostTransform [0, 1, 2] 3 4).hits +
        (analyzePostTransform [0, 1, 2] 3 4).misses = 3 ∧
    (analyzePostTransform [0, 1, 2] 3 4).hit_percent +
        (analyzePostTransform [0, 1, 2] 3 4).miss_percent = 100 := by
  have h := analyzePostTransform_hits_add_misses [0, 1, 2] 3 4
  exact ⟨by simpa using h.1, h.2 (by decide)⟩

/-- C4 fails on the code as modelled: the FIFO cache exhibits Belady's
anomaly. On the reference string 1,2,3,4,1,2,5,1,2,3,4,5 a cache of size 3
misses 9 times but a cache of size 4 misses 10 times. -/
theorem analyzePostTransform_misses_not_monotone :
    3 ≤ 4 ∧
    (analyzePostTransform [1, 2, 3, 4, 1, 2, 5, 1, 2, 3, 4, 5] 6 3).misses = 9 ∧
    (analyzePostTransform [1, 2, 3, 4, 1, 2, 5, 1, 2, 3, 4, 5] 6 4).misses = 10 ∧
    ¬ (analyzePostTransform [1, 2, 3, 4, 1, 2, 5, 1, 2, 3, 4, 5] 6 4).misses ≤
        (analyzePostTransform [1, 2, 3, 4, 1, 2, 5, 1, 2, 3, 4, 5] 6 3).misses := by
  refine ⟨by decide, by decide, by decide, by decide⟩

/-- C4 amended: the miss count is non-increasing in the cache size whenever
the larger cache can hold every distinct index value of the stream; then
the larger cache incurs exactly the compulsory misses, which bound every
miss count from below. (Unrestricted monotonicity fails: Belady's anomaly,
see `analyzePostTransform_misses_not_monotone`.) -/
theorem analyzePostTransform_misses_monotone_of_card_le (xs : List ℕ)
    (vc c₁ c₂ : ℕ) (h₁ : c₁ ≤ c₂) (h₂ : xs.toFinset.card ≤ c₂) :
    (analyzePostTransform xs vc c₂).misses ≤
      (analyzePostTransform xs vc c₁).misses := by
  have hm2 : (analyzePostTransform xs vc c₂).misses = xs.toFinset.card := by
    show cacheMisses c₂ [] xs = xs.toFinset.card
    have h := cacheMisses_eq_of_card_le c₂ xs [] List.nodup_nil (by simpa using h₂)
    simpa using h
  have hm1 : xs.toFinset.card ≤ (analyzePostTransform xs vc c₁).misses := by
    have h := toFinset_sdiff_card_le_cacheMisses c₁ xs []
    simpa using h
  omega

/-- Witness for `analyzePostTransform_misses_monotone_of_card_le`. -/
theorem analyzePostTransform_misses_monotone_of_card_le_witness :
    (analyzePostTransform [0, 1, 2, 0, 1, 2] 3 4).misses ≤
      (analyzePostTransform [0, 1, 2, 0, 1, 2] 3 3).misses :=
  analyzePostTransform_misses_monotone_of_card_le [0, 1, 2, 0, 1, 2] 3 3 4
    (by decide) (by decide)

end Meshopt

namespace Meshopt

/-! ### FetchOptimizer (optimizePreTransform) -/

/-- Modelled from the spec (§4.6 FetchOptimizer, body absent from src/):
the distinct index values in first-use order, extending the accumulator
`seen` (each yet-unseen value is appended when first encountered). -/
def fetchSeen (seen : List ℕ) : List ℕ → List ℕ
  | [] => seen
  | x :: xs => if x ∈ seen then fetchSeen seen xs else fetchSeen (seen ++ [x]) xs

/-- Modelled from the spec (§4.6, body absent from src/): rewrite of the
index stream. A first occurrence is assigned the next sequential slot (the
number of values seen so far); every later occurrence reuses the assigned
slot, which is the value's position in the first-use order. -/
def fetchRemapIndices (seen : List ℕ) : List ℕ → List ℕ
  | [] => []
  | x :: xs =>
    if x ∈ seen then seen.indexOf x :: fetchRemapIndices seen xs
    else seen.length :: fetchRemapIndices (seen ++ [x]) xs

/-- Modelled from the spec (§4.6 / §6, body absent from src/):
`optimizePreTransform` (meshoptimizer.hpp lines 42-43). Returns the
compacted vertex buffer (each referenced vertex copied to its assigned
slot, in first-use order) and the remapped index buffer; `dflt` stands for
the unspecified content of out-of-range fetches. -/
def optimizePreTransform {V : Type} (dflt : V) (vertices : List V)
    (indices : List ℕ) : List V × List ℕ :=
  ((fetchSeen [] indices).map (fun i => vertices.getD i dflt),
   fetchRemapIndices [] indices)

theorem fetchSeen_exists_append (xs : List ℕ) :
    ∀ seen : List ℕ, ∃ t, fetchSeen seen xs = seen ++ t := by
  induction xs with
  | nil => intro seen; exact ⟨[], by simp [fetchSeen]⟩
  | cons x xs ih =>
    intro seen
    by_cases hx : x ∈ seen
    · obtain ⟨t, ht⟩ := ih seen
      exact ⟨t, by simp [fetchSeen, hx, ht]⟩
    · obtain ⟨t, ht⟩ := ih (seen ++ [x])
      exact ⟨x :: t, by simp [fetchSeen, hx, ht]⟩

theorem mem_fetchSeen (xs : List ℕ) :
    ∀ (seen : List ℕ) (y : ℕ),
      y ∈ fetchSeen seen xs ↔ y ∈ seen ∨ y ∈ xs := by
  induction xs with
  | nil => intro seen y; simp [fetchSeen]
  | cons x xs ih =>
    intro seen y
    by_cases hx : x ∈ seen
    · rw [show fetchSeen seen (x :: xs) = fetchSeen seen xs by
        simp [fetchSeen, hx], ih]
      constructor
      · rintro (h | h)
        · exact Or.inl h
        · exact Or.inr (List.mem_cons_of_mem _ h)
      · rintro (h | h)
        · exact Or.inl h
        · rcases List.mem_cons.mp h with rfl | h
          · exact Or.inl hx
          · exact Or.inr h
    · rw [show fetchSeen seen (x :: xs) = fetchSeen (seen ++ [x]) xs by
        simp [fetchSeen, hx], ih]
      simp only [List.mem_append, List.mem_singleton, List.mem_cons]
      tauto

theorem fetchSeen_nodup (xs : List ℕ) :
    ∀ seen : List ℕ, seen.Nodup → (fetchSeen seen xs).Nodup := by
  induction xs with
  | nil => intro seen h; simpa [fetchSeen] using h
  | cons x xs ih =>
    intro seen h
    by_cases hx : x ∈ seen
    · rw [show fetchSeen seen (x :: xs) = fetchSeen seen xs by
        simp [fetchSeen, hx]]
      exact ih seen h
    · rw [show fetchSeen seen (x :: xs) = fetchSeen (seen ++ [x]) xs by
        simp [fetchSeen, hx]]
      exact ih (seen ++ [x]) (by simp [List.nodup_append, h, hx])

/-- The remapped stream is the pointwise position of each index value in
the final first-use order. -/
theorem fetchRemapIndices_eq_map (xs : List ℕ) :
    ∀ seen : List ℕ,
      fetchRemapIndices seen xs =
        xs.map (fun x => (fetchSeen seen xs).indexOf x) := by
  induction xs with
  | nil => intro seen; rfl
  | cons x xs ih =>
    intro seen
    by_cases hx : x ∈ seen
    · rw [show fetchRemapIndices seen (x :: xs) =
          seen.indexOf x :: fetchRemapIndices seen xs by
        simp [fetchRemapIndices, hx]]
      rw [show fetchSeen seen (x :: xs) = fetchSeen seen xs by
        simp [fetchSeen, hx]]
      obtain ⟨t, ht⟩ := fetchSeen_exists_append xs seen
      rw [List.map_cons, ih seen]
      congr 1
      rw [ht, List.indexOf_append_of_mem hx]
    · rw [show fetchRemapIndices seen (x :: xs) =
          seen.length :: fetchRemapIndices (seen ++ [x]) xs by
        simp [fetchRemapIndices, hx]]
      rw [show fetchSeen seen (x :: xs) = fetchSeen (seen ++ [x]) xs by
        simp [fetchSeen, hx]]
      obtain ⟨t, ht⟩ := fetchSeen_exists_append xs (seen ++ [x])
      rw [List.map_cons, ih (seen ++ [x])]
      congr 1
      rw [ht, List.indexOf_append_of_mem (by simp),
        List.indexOf_append_of_not_mem hx]
      simp

theorem indexOf_range {v n : ℕ} (h : v < n) : (List.range n).indexOf v = v := by
  have hnd : (List.range n).Nodup := List.nodup_range n
  have hv : v < (List.range n).length := by simpa using h
  have := List.indexOf_getElem hnd v hv
  simpa [List.getElem_range] using this

theorem map_getD_range {α : Type} (l : List α) (d : α) :
    (List.range l.length).map (fun i => l.getD i d) = l := by
  apply List.ext_getElem
  · simp
  · intro i h1 h2
    simp [List.getD_eq_getElem, List.getElem_range,
      List.getElem?_eq_getElem h2]

/-- Re-running the remap on an already remapped stream is the identity:
relative to the slot table `0, …, seen.length - 1` the remapped stream's
first-use order is again `0, 1, 2, …` and the rewrite fixes it. -/
theorem fetchRemapIndices_idem (xs : List ℕ) :
    ∀ seen : List ℕ,
      fetchSeen (List.range seen.length) (fetchRemapIndices seen xs) =
        List.range (fetchSeen seen xs).length ∧
      fetchRemapIndices (List.range seen.length) (fetchRemapIndices seen xs) =
        fetchRemapIndices seen xs := by
  induction xs with
  | nil => intro seen; exact ⟨rfl, rfl⟩
  | cons x xs ih =>
    intro seen
    by_cases hx : x ∈ seen
    · have hidx : seen.indexOf x ∈ List.range seen.length := by
        simpa using List.indexOf_lt_length.mpr hx
      have hr : fetchRemapIndices seen (x :: xs) =
          seen.indexOf x :: fetchRemapIndices seen xs := by
        simp [fetchRemapIndices, hx]
      have hs : fetchSeen seen (x :: xs) = fetchSeen seen xs := by
        simp [fetchSeen, hx]
      refine ⟨?_, ?_⟩
      · rw [hr, hs, show fetchSeen (List.range seen.length)
            (seen.indexOf x :: fetchRemapIndices seen xs) =
          fetchSeen (List.range seen.length) (fetchRemapIndices seen xs) by
            simp [fetchSeen, hidx]]
        exact (ih seen).1
      · rw [hr, show fetchRemapIndices (List.range seen.length)
            (seen.indexOf x :: fetchRemapIndices seen xs) =
          (List.range seen.length).indexOf (seen.indexOf x) ::
            fetchRemapIndices (List.range seen.length)
              (fetchRemapIndices seen xs) by
            simp [fetchRemapIndices, hidx]]
        rw [(ih seen).2, indexOf_range (List.indexOf_lt_length.mpr hx)]
    · have hnot : seen.length ∉ List.range seen.length := by simp
      have hr : fetchRemapIndices seen (x :: xs) =
          seen.length :: fetchRemapIndices (seen ++ [x]) xs := by
        simp [fetchRemapIndices, hx]
      have hs : fetchSeen seen (x :: xs) = fetchSeen (seen ++ [x]) xs := by
        simp [fetchSeen, hx]
      have hrange : List.range seen.length ++ [seen.length] =
          List.range (seen ++ [x]).length := by
        simp [List.range_succ]
      refine ⟨?_, ?_⟩
      · rw [hr, hs, show fetchSeen (List.range seen.length)
            (seen.length :: fetchRemapIndices (seen ++ [x]) xs) =
          fetchSeen (List.range seen.length ++ [seen.length])
            (fetchRemapIndices (seen ++ [x]) xs) by
            simp [fetchSeen, hnot]]
        rw [hrange]
        exact (ih (seen ++ [x])).1
      · rw [hr, show fetchRemapIndices (List.range seen.length)
            (seen.length :: fetchRemapIndices (seen ++ [x]) xs) =
          (List.range seen.length).length ::
            fetchRemapIndices (List.range seen.length ++ [seen.length])
              (fetchRemapIndices (seen ++ [x]) xs) by
            simp [fetchRemapIndices, hnot]]
        rw [hrange, (ih (seen ++ [x])).2, List.length_range]

end Meshopt

namespace Meshopt

/-- C5: for indices referencing exactly k distinct vertex values,
`optimizePreTransform` (a) keeps the index buffer length, (b) rewrites
every index to its value's position in the first-use order, (c) maps the
i-th distinct value in first-use order to i, (d) uses exactly the slot
values {0, …, k-1}, (e) emits the slots in strictly increasing first-use
order, and (f) is idempotent: re-running it on the remapped indices and
compacted vertex buffer leaves both unchanged. -/
theorem optimizePreTransform_compaction_idempotent {V : Type} (dflt : V)
    (vertices : List V) (indices : List ℕ) :
    (optimizePreTransform dflt vertices indices).2.length = indices.length ∧
    (optimizePreTransform dflt vertices indices).2 =
      indices.map (fun x => (fetchSeen [] indices).indexOf x) ∧
    (∀ i (h : i < (fetchSeen [] indices).length),
      (fetchSeen [] indices).indexOf
        ((fetchSeen [] indices).get ⟨i, h⟩) = i) ∧
    (optimizePreTransform dflt vertices indices).2.toFinset =
      Finset.range indices.toFinset.card ∧
    fetchSeen [] (optimizePreTransform dflt vertices indices).2 =
      List.range (fetchSeen [] indices).length ∧
    optimizePreTransform dflt
        (optimizePreTransform dflt vertices indices).1
        (optimizePreTransform dflt vertices indices).2 =
      optimizePreTransform dflt vertices indices := by
  have hnd : (fetchSeen [] indices).Nodup :=
    fetchSeen_nodup indices [] List.nodup_nil
  have hmem : ∀ y, y ∈ fetchSeen [] indices ↔ y ∈ indices := by
    intro y
    rw [mem_fetchSeen]
    simp
  have hb : (optimizePreTransform dflt vertices indices).2 =
      indices.map (fun x => (fetchSeen [] indices).indexOf x) :=
    fetchRemapIndices_eq_map indices []
  have hc : ∀ i (h : i < (fetchSeen [] indices).length),
      (fetchSeen [] indices).indexOf
        ((fetchSeen [] indices).get ⟨i, h⟩) = i := by
    intro i h
    exact List.get_indexOf hnd ⟨i, h⟩
  have hfin : (fetchSeen [] indices).toFinset = indices.toFinset := by
    ext y; simp [List.mem_toFinset, hmem]
  have hcard : indices.toFinset.card = (fetchSeen [] indices).length := by
    rw [← hfin, List.toFinset_card_of_nodup hnd]
  have hidem := fetchRemapIndices_idem indices []
  have he : fetchSeen [] (optimizePreTransform dflt vertices indices).2 =
      List.range (fetchSeen [] indices).length := by
    have h := hidem.1
    simpa [optimizePreTransform] using h
  refine ⟨by rw [hb]; exact List.length_map _ _, hb, hc, ?_, he, ?_⟩
  · rw [hb]
    ext j
    simp only [List.mem_toFinset, List.mem_map, Finset.mem_range, hcard]
    constructor
    · rintro ⟨x, hx, rfl⟩
      exact List.indexOf_lt_length.mpr ((hmem x).mpr hx)
    · intro hj
      refine ⟨(fetchSeen [] indices).get ⟨j, hj⟩, ?_, hc j hj⟩
      exact (hmem _).mp (List.get_mem _ j hj)
  · have hsnd : fetchRemapIndices []
        (optimizePreTransform dflt vertices indices).2 =
        (optimizePreTransform dflt vertices indices).2 := by
      have h := hidem.2
      simpa [optimizePreTransform] using h
    have hlen1 : (optimizePreTransform dflt vertices indices).1.length =
        (fetchSeen [] indices).length := by
      simp [optimizePreTransform]
    unfold optimizePreTransform
    refine Prod.ext ?_ ?_
    · show (fetchSeen [] (fetchRemapIndices [] indices)).map _ =
        (fetchSeen [] indices).map (fun i => vertices.getD i dflt)
    
      have he' : fetchSeen [] (fetchRemapIndices [] indices) =
          List.range ((fetchSeen [] indices).map
            (fun i => vertices.getD i dflt)).length := by
        rw [List.length_map]
        simpa [optimizePreTransform] using hidem.1
      rw [he']
      exact map_getD_range _ _
    · simpa [optimizePreTransform] using hsnd

/-- Witness for `optimizePreTransform_compaction_idempotent` at a concrete
input. -/
theorem optimizePreTransform_compaction_idempotent_witness :
    (optimizePreTransform (0 : ℕ) [10, 20, 30, 40] [2, 1, 2, 0]).2.length = 4 ∧
    (fetchSeen [] [2, 1, 2, 0]).indexOf
        ((fetchSeen [] [2, 1, 2, 0]).get ⟨1, by decide⟩) = 1 := by
  have h := optimizePreTransform_compaction_idempotent (0 : ℕ)
    [10, 20, 30, 40] [2, 1, 2, 0]
  exact ⟨by simpa using h.1, h.2.2.1 1 (by decide)⟩

end Meshopt

namespace Meshopt

/-! ### Triangles and scheduling infrastructure -/

/-- The consecutive index triples of an index buffer (triangle t occupies
positions 3t, 3t+1, 3t+2); a trailing fragment shorter than 3 is ignored. -/
def triangles : List ℕ → List (ℕ × ℕ × ℕ)
  | a :: b :: c :: rest => (a, b, c) :: triangles rest
  | _ => []

/-- The three vertices of a triangle, in stored order. -/
def triVerts (t : ℕ × ℕ × ℕ) : List ℕ := [t.1, t.2.1, t.2.2]

/-- Rebuild a flat index buffer from a triangle list. -/
def flattenTris (ts : List (ℕ × ℕ × ℕ)) : List ℕ :=
  (ts.map triVerts).flatten

/-- Whether triangle `t` is incident on vertex `v`. -/
def triHas (t : ℕ × ℕ × ℕ) (v : ℕ) : Bool :=
  (t.1 == v) || (t.2.1 == v) || (t.2.2 == v)

theorem triangles_flattenTris (ts : List (ℕ × ℕ × ℕ)) :
    triangles (flattenTris ts) = ts := by
  induction ts with
  | nil => rfl
  | cons t ts ih =>
    cases t with
    | mk a bc =>
      cases bc with
      | mk b c => simpa [flattenTris, triVerts, triangles] using ih

theorem flattenTris_length (ts : List (ℕ × ℕ × ℕ)) :
    (flattenTris ts).length = 3 * ts.length := by
  induction ts with
  | nil => rfl
  | cons t ts ih =>
    simp only [flattenTris, List.map_cons, List.flatten_cons, List.length_append]
    simp only [flattenTris] at ih
    simp [triVerts, ih]
    ring

theorem flattenTris_triangles (xs : List ℕ) (h : 3 ∣ xs.length) :
    flattenTris (triangles xs) = xs := by
  induction xs using triangles.induct with
  | case1 a b c rest ih =>
    have h' : 3 ∣ rest.length := by
      simp only [List.length_cons] at h
      omega
    simpa [triangles, flattenTris, triVerts] using ih h'
  | case2 l h1 =>
    rcases l with _ | ⟨a, _ | ⟨b, _ | ⟨c, rest⟩⟩⟩
    · rfl
    · simp at h
    · simp at h; omega
    · exact absurd rfl (h1 a b c rest)

theorem triangles_length (xs : List ℕ) (h : 3 ∣ xs.length) :
    (triangles xs).length * 3 = xs.length := by
  have := flattenTris_length (triangles xs)
  rw [flattenTris_triangles xs h] at this
  omega

/-- The multiset of triangles of an index buffer, each triangle taken as
the unordered multiset of its three vertices (insensitive to rotation and
winding). -/
def triMultiset (indices : List ℕ) : Multiset (Multiset ℕ) :=
  ((triangles indices).map (fun t => ({t.1, t.2.1, t.2.2} : Multiset ℕ)) :
    List (Multiset ℕ))

theorem triMultiset_eq_of_perm {xs ys : List ℕ}
    (h : List.Perm (triangles xs) (triangles ys)) :
    triMultiset xs = triMultiset ys := by
  exact Multiset.coe_eq_coe.mpr (h.map _)

/-- First list element maximising a score; earlier elements win ties (for
pending triangles kept in ascending original order this is the lowest
original triangle index). -/
def argmaxQ (f : ℕ → ℕ) : List ℕ → ℕ
  | [] => 0
  | [t] => t
  | t :: ts =>
    let m := argmaxQ f ts
    if f t < f m then m else t

/-- First list element minimising a natural-number key; earlier elements
win ties. -/
def argminN (f : ℕ → ℕ) : List ℕ → ℕ
  | [] => 0
  | [t] => t
  | t :: ts =>
    let m := argminN f ts
    if f m < f t then m else t

theorem argmaxQ_mem (f : ℕ → ℕ) :
    ∀ l : List ℕ, l ≠ [] → argmaxQ f l ∈ l := by
  intro l
  induction l with
  | nil => intro h; exact absurd rfl h
  | cons t ts ih =>
    intro _
    cases ts with
    | nil => simp [argmaxQ]
    | cons u us =>
      show argmaxQ f (t :: u :: us) ∈ t :: u :: us
      rw [show argmaxQ f (t :: u :: us) =
          (if f t < f (argmaxQ f (u :: us)) then argmaxQ f (u :: us) else t) from rfl]
      split
      · exact List.mem_cons_of_mem _ (ih (by simp))
      · exact List.mem_cons_self _ _

theorem argminN_mem (f : ℕ → ℕ) :
    ∀ l : List ℕ, l ≠ [] → argminN f l ∈ l := by
  intro l
  induction l with
  | nil => intro h; exact absurd rfl h
  | cons t ts ih =>
    intro _
    cases ts with
    | nil => simp [argminN]
    | cons u us =>
      show argminN f (t :: u :: us) ∈ t :: u :: us
      rw [show argminN f (t :: u :: us) =
          (if f (argminN f (u :: us)) < f t then argminN f (u :: us) else t)
        from rfl]
      split
      · exact List.mem_cons_of_mem _ (ih (by simp))
      · exact List.mem_cons_self _ _

theorem headD_mem {α : Type} (l : List α) (d : α) (h : l ≠ []) :
    l.headD d ∈ l := by
  cases l with
  | nil => exact absurd rfl h
  | cons a t => exact List.mem_cons_self a t

end Meshopt

namespace Meshopt

/-! ### ForsythOptimizer (optimizePostTransformTomF) -/

/-- Live-triangle count of a vertex: the number of not-yet-emitted
triangles incident on it (spec §3, derived from the pending set). -/
def liveCount (tris : List (ℕ × ℕ × ℕ)) (remaining : List ℕ) (v : ℕ) : ℕ :=
  (remaining.filter (fun t => triHas (tris.getD t (0, 0, 0)) v)).length

/-- Modelled from the spec (§4.3, body absent from src/): cache-position
score, strictly decreasing in the distance from the most recently inserted
slot and zero outside the `cache_size` window. -/
def posScore (cache_size : ℕ) (cache : List ℕ) (v : ℕ) : ℕ :=
  if v ∈ cache then
    if cache.indexOf v < cache_size then cache_size - cache.indexOf v
    else 0
  else 0

/-- Modelled from the spec (§4.3, body absent from src/): valence score,
increasing as the live-triangle count decreases (zero for a finished
vertex); the spec leaves the exact magnitudes open, so the score of a
vertex with `live` pending triangles out of `tcount` is `tcount + 1 -
live`. -/
def valScore (tcount live : ℕ) : ℕ := if live = 0 then 0 else tcount + 1 - live

/-- Modelled from the spec (§4.3, body absent from src/): a triangle's
score is the sum of its three vertices' scores. -/
def forsythTriScore (cache_size : ℕ) (tris : List (ℕ × ℕ × ℕ))
    (cache remaining : List ℕ) (t : ℕ) : ℕ :=
  ((triVerts (tris.getD t (0, 0, 0))).map (fun v =>
    posScore cache_size cache v +
      valScore tris.length (liveCount tris remaining v))).sum

/-- Pending triangles adjacent to a currently cached vertex. -/
def cachedCandidates (tris : List (ℕ × ℕ × ℕ)) (cache remaining : List ℕ) :
    List ℕ :=
  remaining.filter (fun t =>
    (triVerts (tris.getD t (0, 0, 0))).any (fun v => cache.contains v))

/-- Smallest live count among a triangle's three vertices. -/
def triMinLive (tris : List (ℕ × ℕ × ℕ)) (remaining : List ℕ) (t : ℕ) : ℕ :=
  ((triVerts (tris.getD t (0, 0, 0))).map (liveCount tris remaining)).foldr
    min (tris.length * 3)

/-- Modelled from the spec (§4.3, body absent from src/): pick the highest
scoring pending triangle among those adjacent to cached vertices (ties to
the lowest original index); if no cached vertex has a pending triangle,
fall back to the pending triangle whose lowest-valence vertex is most
starved (again lowest index first). -/
def forsythSelect (cache_size : ℕ) (tris : List (ℕ × ℕ × ℕ))
    (cache remaining : List ℕ) : ℕ :=
  let cand := cachedCandidates tris cache remaining
  if cand.isEmpty then argminN (triMinLive tris remaining) remaining
  else argmaxQ (forsythTriScore cache_size tris cache remaining) cand

/-- Modelled from the spec (§4.3, body absent from src/): FIFO insertion
into the scored cache (most recent first); a resident vertex stays in
place, a new vertex enters at the front and the window is truncated. -/
def fifoInsertFront (cache_size : ℕ) (cache : List ℕ) (v : ℕ) : List ℕ :=
  if v ∈ cache then cache else (v :: cache).take cache_size

/-- Modelled from the spec (§4.3, body absent from src/): the greedy
Forsyth main loop, emitting one pending triangle per step; the fuel equals
the pending-triangle count. -/
def forsythLoop (cache_size : ℕ) (tris : List (ℕ × ℕ × ℕ)) :
    ℕ → List ℕ → List ℕ → List ℕ
  | 0, _, _ => []
  | fuel + 1, cache, remaining =>
    if remaining.isEmpty then []
    else
      let t := forsythSelect cache_size tris cache remaining
      t :: forsythLoop cache_size tris fuel
        ((triVerts (tris.getD t (0, 0, 0))).foldl (fifoInsertFront cache_size)
          cache)
        (remaining.erase t)

/-- Modelled from the spec (§4.3 / §6, body absent from src/):
`optimizePostTransformTomF` (meshoptimizer.hpp lines 12-13). Reorders the
triangles by the Forsyth greedy schedule; `cache_size` is capped at 32. -/
def optimizePostTransformTomF (indices : List ℕ) (vertex_count : ℕ)
    (cache_size : ℕ) : List ℕ :=
  let tris := triangles indices
  let sched := forsythLoop (min cache_size 32) tris tris.length []
    (List.range tris.length)
  flattenTris (sched.map (fun t => tris.getD t (0, 0, 0)))

theorem forsythSelect_mem (cache_size : ℕ) (tris : List (ℕ × ℕ × ℕ))
    (cache remaining : List ℕ) (h : remaining ≠ []) :
    forsythSelect cache_size tris cache remaining ∈ remaining := by
  unfold forsythSelect
  by_cases hc : (cachedCandidates tris cache remaining).isEmpty
  · simp only [hc, if_true]
    exact argminN_mem _ remaining h
  · simp only [hc, if_false]
    have hne : cachedCandidates tris cache remaining ≠ [] := by
      intro hnil
      rw [hnil] at hc
      exact hc rfl
    exact List.mem_of_mem_filter (argmaxQ_mem _ _ hne)

theorem forsythLoop_perm (cache_size : ℕ) (tris : List (ℕ × ℕ × ℕ)) :
    ∀ (fuel : ℕ) (cache remaining : List ℕ), remaining.length = fuel →
      List.Perm (forsythLoop cache_size tris fuel cache remaining) remaining := by
  intro fuel
  induction fuel with
  | zero =>
    intro cache remaining h
    rw [List.length_eq_zero] at h
    subst h
    exact List.Perm.refl _
  | succ n ih =>
    intro cache remaining h
    rcases remaining with _ | ⟨a, rest⟩
    · simp at h
    · have hne : (a :: rest) ≠ ([] : List ℕ) := by simp
      rw [forsythLoop]
      simp only [List.isEmpty_cons, Bool.false_eq_true, if_false]
      have hmem := forsythSelect_mem cache_size tris cache (a :: rest) hne
      have hlen : ((a :: rest).erase
          (forsythSelect cache_size tris cache (a :: rest))).length = n := by
        rw [List.length_erase_of_mem hmem, h]
        omega
      have ihp := ih ((triVerts (tris.getD (forsythSelect cache_size tris cache
        (a :: rest)) (0, 0, 0))).foldl (fifoInsertFront cache_size) cache) _ hlen
      exact (ihp.cons _).trans (List.perm_cons_erase hmem).symm

end Meshopt

namespace Meshopt

/-! ### TipsifyOptimizer (optimizePostTransformTipsify) -/

/-- Whether vertex `v` still has a pending incident triangle. -/
def hasPendingV (tris : List (ℕ × ℕ × ℕ)) (remaining : List ℕ) (v : ℕ) :
    Bool :=
  remaining.any (fun t => triHas (tris.getD t (0, 0, 0)) v)

/-- All vertices of the pending triangles (with repetition). -/
def pendingVertexList (tris : List (ℕ × ℕ × ℕ)) (remaining : List ℕ) :
    List ℕ :=
  (remaining.map (fun t => triVerts (tris.getD t (0, 0, 0)))).flatten

/-- Traversal state of the Tipsify optimizer (spec §4.4): pending
triangles, the dead-end LIFO stack, the current fan vertex, and per-vertex
last-touch timestamps (`0` = never touched; a touch at time `n` stores
`n + 1`) used to detect cache-locality restarts. -/
structure TipsifyState where
  remaining : List ℕ
  stack : List ℕ
  cur : ℕ
  stamps : ℕ → ℕ
  time : ℕ

/-- Modelled from the spec (§4.4, body absent from src/): the next fan
vertex — the current vertex while it has pending work, else the topmost
stack entry that is not yet dead, else the globally least-loaded pending
vertex; `none` once nothing is pending. -/
def tipsifyNextVertex (tris : List (ℕ × ℕ × ℕ)) (st : TipsifyState) :
    Option ℕ :=
  if hasPendingV tris st.remaining st.cur then some st.cur
  else
    match st.stack.find? (fun v => hasPendingV tris st.remaining v) with
    | some v => some v
    | none =>
      let pv := pendingVertexList tris st.remaining
      if pv.isEmpty then none
      else some (argminN (liveCount tris st.remaining) pv)

/-- Modelled from the spec (§4.4, body absent from src/): the emitted
triangle — the fan vertex's first pending incident triangle in original
(adjacency-list) order, falling back to the first pending triangle. -/
def tipsifySelect (tris : List (ℕ × ℕ × ℕ)) (st : TipsifyState) : ℕ :=
  match tipsifyNextVertex tris st with
  | some v =>
    (st.remaining.find? (fun t => triHas (tris.getD t (0, 0, 0)) v)).getD
      (st.remaining.headD 0)
  | none => st.remaining.headD 0

/-- A cluster boundary is recorded when the chosen fan vertex was not
among the `cache_size` most recently touched vertices (spec §4.4). -/
def tipsifyColdRestart (cache_size : ℕ) (tris : List (ℕ × ℕ × ℕ))
    (st : TipsifyState) : Bool :=
  match tipsifyNextVertex tris st with
  | none => true
  | some v => st.stamps v + cache_size < st.time + 1

/-- Modelled from the spec (§4.4, body absent from src/): state update
after emitting triangle `t` — remove it from the pending set, push its
vertices that still have pending work onto the dead-end stack, advance the
current vertex to such a vertex if one exists, and timestamp the three
touched vertices. -/
def tipsifyEmit (tris : List (ℕ × ℕ × ℕ)) (st : TipsifyState) (t : ℕ) :
    TipsifyState :=
  let vs := triVerts (tris.getD t (0, 0, 0))
  let rem := st.remaining.erase t
  let alive := vs.filter (fun v => hasPendingV tris rem v)
  { remaining := rem
    stack := alive ++ st.stack
    cur := alive.headD st.cur
    stamps := fun v => if vs.contains v then st.time + 1 else st.stamps v
    time := st.time + 1 }

/-- Modelled from the spec (§4.4, body absent from src/): the Tipsify main
loop; each step emits one pending triangle together with a flag marking a
cluster restart. -/
def tipsifyLoop (cache_size : ℕ) (tris : List (ℕ × ℕ × ℕ)) :
    ℕ → TipsifyState → List (ℕ × Bool)
  | 0, _ => []
  | fuel + 1, st =>
    if st.remaining.isEmpty then []
    else
      (tipsifySelect tris st, tipsifyColdRestart cache_size tris st) ::
        tipsifyLoop cache_size tris fuel (tipsifyEmit tris st (tipsifySelect tris st))

/-- Modelled from the spec (§4.4 / §6, body absent from src/):
`optimizePostTransformTipsify` (meshoptimizer.hpp lines 22-23). Returns
the reordered index buffer and the cluster start offsets (always starting
with 0; a new cluster starts wherever the traversal had a cold restart). -/
def optimizePostTransformTipsify (indices : List ℕ) (vertex_count : ℕ)
    (cache_size : ℕ) : List ℕ × List ℕ :=
  let tris := triangles indices
  let steps := tipsifyLoop cache_size tris tris.length
    { remaining := List.range tris.length, stack := [], cur := 0,
      stamps := fun _ => 0, time := 0 }
  let sched := steps.map Prod.fst
  let bounds := 0 :: ((List.range steps.length).filter
    (fun i => (steps.getD i (0, false)).2 && (i != 0)))
  (flattenTris (sched.map (fun t => tris.getD t (0, 0, 0))), bounds)

theorem tipsifySelect_mem (tris : List (ℕ × ℕ × ℕ)) (st : TipsifyState)
    (h : st.remaining ≠ []) : tipsifySelect tris st ∈ st.remaining := by
  unfold tipsifySelect
  cases hv : tipsifyNextVertex tris st with
  | none => exact headD_mem _ _ h
  | some v =>
    show (st.remaining.find? (fun t => triHas (tris.getD t (0, 0, 0)) v)).getD
        (st.remaining.headD 0) ∈ st.remaining
    cases hf : st.remaining.find? (fun t => triHas (tris.getD t (0, 0, 0)) v) with
    | none =>
      rw [Option.getD_none]
      exact headD_mem _ _ h
    | some a =>
      rw [Option.getD_some]
      exact List.mem_of_find?_eq_some hf

theorem tipsifyLoop_perm (cache_size : ℕ) (tris : List (ℕ × ℕ × ℕ)) :
    ∀ (fuel : ℕ) (st : TipsifyState), st.remaining.length = fuel →
      List.Perm ((tipsifyLoop cache_size tris fuel st).map Prod.fst)
        st.remaining := by
  intro fuel
  induction fuel with
  | zero =>
    intro st h
    rw [List.length_eq_zero] at h
    rw [h]
    exact List.Perm.refl _
  | succ n ih =>
    intro st h
    have hne : st.remaining ≠ [] := by
      intro hnil; rw [hnil] at h; simp at h
    have hni : st.remaining.isEmpty = false := by
      cases hr : st.remaining with
      | nil => exact absurd hr hne
      | cons a t => rfl
    rw [tipsifyLoop]
    rw [hni]
    simp only [Bool.false_eq_true, if_false, List.map_cons]
    have hmem := tipsifySelect_mem tris st hne
    have hlen : (tipsifyEmit tris st (tipsifySelect tris st)).remaining.length
        = n := by
      show (st.remaining.erase (tipsifySelect tris st)).length = n
      rw [List.length_erase_of_mem hmem, h]
      omega
    have ihp := ih (tipsifyEmit tris st (tipsifySelect tris st)) hlen
    have : (tipsifyEmit tris st (tipsifySelect tris st)).remaining =
        st.remaining.erase (tipsifySelect tris st) := rfl
    rw [this] at ihp
    exact (ihp.cons _).trans (List.perm_cons_erase hmem).symm

end Meshopt

namespace Meshopt

/-! ### OverdrawOptimizer (optimizeOverdrawTipsify) -/

/-- Split a list at the given start offsets (offsets are relative to the
start of the list, in ascending order, as produced by Tipsify); the
concatenation of the chunks always restores the list. -/
def splitAtBoundaries {α : Type} : List ℕ → List α → List (List α)
  | [], l => [l]
  | n :: ns, l => l.take n :: splitAtBoundaries (ns.map (fun m => m - n)) (l.drop n)
termination_by bs _ => bs.length
decreasing_by simp

theorem flatten_splitAtBoundaries {α : Type} (bs : List ℕ) (l : List α) :
    (splitAtBoundaries bs l).flatten = l := by
  induction bs, l using splitAtBoundaries.induct with
  | case1 l => simp [splitAtBoundaries]
  | case2 n ns l ih => simp [splitAtBoundaries, ih]

/-- Stable insertion by ascending rational cost. -/
def insertByCost {α : Type} (key : α → ℚ) (x : α) : List α → List α
  | [] => [x]
  | y :: ys => if key x ≤ key y then x :: y :: ys else y :: insertByCost key x ys

/-- Stable sort of the clusters by ascending spatial cost. -/
def sortByCost {α : Type} (key : α → ℚ) (l : List α) : List α :=
  l.foldr (insertByCost key) []

theorem insertByCost_perm {α : Type} (key : α → ℚ) (x : α) :
    ∀ l : List α, List.Perm (insertByCost key x l) (x :: l) := by
  intro l
  induction l with
  | nil => exact List.Perm.refl _
  | cons y ys ih =>
    show List.Perm (if key x ≤ key y then x :: y :: ys
      else y :: insertByCost key x ys) (x :: y :: ys)
    split
    · exact List.Perm.refl _
    · exact (ih.cons y).trans (List.Perm.swap x y ys)

theorem sortByCost_perm {α : Type} (key : α → ℚ) :
    ∀ l : List α, List.Perm (sortByCost key l) l := by
  intro l
  induction l with
  | nil => exact List.Perm.refl _
  | cons y ys ih =>
    exact (insertByCost_perm key y (sortByCost key ys)).trans (ih.cons y)

/-- Modelled from the spec (§4.5, body absent from src/): the spatial cost
proxy of a cluster — the summed projection of its member vertices'
positions on the dominant axis (the spec leaves the exact proxy open). -/
def clusterCost (positions : ℕ → ℚ × ℚ × ℚ) (g : List (ℕ × ℕ × ℕ)) : ℚ :=
  ((flattenTris g).map (fun v => (positions v).1)).sum

/-- Modelled from the spec (§4.5, body absent from src/): the candidate
reordering — the Tipsify clusters, kept intact as atomic units, reordered
by ascending spatial cost (stable, so equal-cost clusters keep their
Tipsify-given relative order). -/
def overdrawCandidate (indices : List ℕ) (positions : ℕ → ℚ × ℚ × ℚ)
    (clusters : List ℕ) : List ℕ :=
  flattenTris
    (sortByCost (clusterCost positions)
      (splitAtBoundaries clusters (triangles indices))).flatten

/-- Modelled from the spec (§4.5 / §6, body absent from src/):
`optimizeOverdrawTipsify` (meshoptimizer.hpp lines 34-35). Positions are
taken as exact rationals; `clusters` are triangle start offsets from
Tipsify. The candidate cluster order is accepted only when its ACMR stays
within `threshold` times the input's ACMR, otherwise the Tipsify order is
kept unchanged. -/
def optimizeOverdrawTipsify (indices : List ℕ) (positions : ℕ → ℚ × ℚ × ℚ)
    (vertex_count : ℕ) (clusters : List ℕ) (cache_size : ℕ)
    (threshold : ℚ) : List ℕ :=
  if (analyzePostTransform (overdrawCandidate indices positions clusters)
        vertex_count cache_size).acmr ≤
      (analyzePostTransform indices vertex_count cache_size).acmr * threshold
  then overdrawCandidate indices positions clusters
  else indices

theorem triangles_overdrawCandidate_perm (indices : List ℕ)
    (positions : ℕ → ℚ × ℚ × ℚ) (clusters : List ℕ) :
    List.Perm (triangles (overdrawCandidate indices positions clusters))
      (triangles indices) := by
  unfold overdrawCandidate
  rw [triangles_flattenTris]
  have h1 := (sortByCost_perm (clusterCost positions)
    (splitAtBoundaries clusters (triangles indices))).flatten
  rw [flatten_splitAtBoundaries] at h1
  exact h1

end Meshopt

namespace Meshopt

/-! ### Triangle-permutation claims -/

theorem reorder_triangles_perm (tris : List (ℕ × ℕ × ℕ)) (sched : List ℕ)
    (h : List.Perm sched (List.range tris.length)) :
    List.Perm
      (triangles (flattenTris (sched.map (fun t => tris.getD t (0, 0, 0)))))
      tris := by
  rw [triangles_flattenTris]
  have hm := h.map (fun t => tris.getD t (0, 0, 0))
  rw [map_getD_range tris (0, 0, 0)] at hm
  exact hm

theorem reorder_length (indices : List ℕ) (sched : List ℕ)
    (h : List.Perm sched (List.range (triangles indices).length))
    (h3 : 3 ∣ indices.length) :
    (flattenTris (sched.map
      (fun t => (triangles indices).getD t (0, 0, 0)))).length =
      indices.length := by
  rw [flattenTris_length, List.length_map, h.length_eq, List.length_range]
  have := triangles_length indices h3
  omega

theorem optimizePostTransformTomF_sched_perm (indices : List ℕ)
    (vertex_count cache_size : ℕ) :
    List.Perm
      (forsythLoop (min cache_size 32) (triangles indices)
        (triangles indices).length [] (List.range (triangles indices).length))
      (List.range (triangles indices).length) :=
  forsythLoop_perm _ _ _ _ _ (List.length_range _)

theorem optimizePostTransformTipsify_sched_perm (indices : List ℕ)
    (vertex_count cache_size : ℕ) :
    List.Perm
      ((tipsifyLoop cache_size (triangles indices)
        (triangles indices).length
        { remaining := List.range (triangles indices).length, stack := [],
          cur := 0, stamps := fun _ => 0, time := 0 }).map Prod.fst)
      (List.range (triangles indices).length) :=
  tipsifyLoop_perm _ _ _ _ (List.length_range _)

/-- C1: for valid input (index count a multiple of 3, indices below the
vertex count) each of the three optimizers returns an index buffer of the
same length whose multiset of triangles — taken as unordered,
rotation-insensitive vertex triples — equals that of the input. -/
theorem optimize_triangle_permutation (indices : List ℕ)
    (vertex_count cache_size : ℕ) (positions : ℕ → ℚ × ℚ × ℚ)
    (clusters : List ℕ) (threshold : ℚ)
    (h3 : 3 ∣ indices.length) (hb : ∀ i ∈ indices, i < vertex_count) :
    (optimizePostTransformTomF indices vertex_count cache_size).length =
        indices.length ∧
    triMultiset (optimizePostTransformTomF indices vertex_count cache_size) =
        triMultiset indices ∧
    (optimizePostTransformTipsify indices vertex_count cache_size).1.length =
        indices.length ∧
    triMultiset
        (optimizePostTransformTipsify indices vertex_count cache_size).1 =
        triMultiset indices ∧
    (optimizeOverdrawTipsify indices positions vertex_count clusters
        cache_size threshold).length = indices.length ∧
    triMultiset (optimizeOverdrawTipsify indices positions vertex_count
        clusters cache_size threshold) = triMultiset indices := by
  have hTomF := optimizePostTransformTomF_sched_perm indices vertex_count
    cache_size
  have hTip := optimizePostTransformTipsify_sched_perm indices vertex_count
    cache_size
  have hcand := triangles_overdrawCandidate_perm indices positions clusters
  refine ⟨?_, ?_, ?_, ?_, ?_, ?_⟩
  · exact reorder_length indices _ hTomF h3
  · exact triMultiset_eq_of_perm (reorder_triangles_perm _ _ hTomF)
  · exact reorder_length indices _ hTip h3
  · exact triMultiset_eq_of_perm (reorder_triangles_perm _ _ hTip)
  · unfold optimizeOverdrawTipsify
    split
    · have hlen : (triangles (overdrawCandidate indices positions
          clusters)).length = (triangles indices).length := hcand.length_eq
      unfold overdrawCandidate
      rw [flattenTris_length]
      unfold overdrawCandidate at hlen
      rw [triangles_flattenTris] at hlen
      rw [hlen]
      have := triangles_length indices h3
      omega
    · rfl
  · unfold optimizeOverdrawTipsify
    split
    · exact triMultiset_eq_of_perm hcand
    · rfl

/-- Witness for `optimize_triangle_permutation` on the spec's two-triangle
mesh. -/
theorem optimize_triangle_permutation_witness :
    (optimizePostTransformTomF [0, 1, 2, 2, 1, 3] 4 16).length = 6 ∧
    triMultiset (optimizePostTransformTipsify [0, 1, 2, 2, 1, 3] 4 16).1 =
      triMultiset [0, 1, 2, 2, 1, 3] := by
  have h := optimize_triangle_permutation [0, 1, 2, 2, 1, 3] 4 16
    (fun _ => (0, 0, 0)) [0] 1 (by decide) (by decide)
  exact ⟨by simpa using h.1, h.2.2.2.1⟩

end Meshopt

namespace Meshopt

/-! ### Overdraw threshold claims -/

theorem acmr_eval (xs : List ℕ) (vc c m k : ℕ)
    (hm : cacheMisses c [] xs = m) (hk : xs.length / 3 = k) :
    (analyzePostTransform xs vc c).acmr = (m : ℚ) / (k : ℚ) := by
  show ((cacheTrace c [] xs).count false : ℚ) / ((xs.length / 3 : ℕ) : ℚ) =
    (m : ℚ) / (k : ℚ)
  rw [show (cacheTrace c [] xs).count false = m from hm, hk]

theorem acmr_nonneg (xs : List ℕ) (vc c : ℕ) :
    0 ≤ (analyzePostTransform xs vc c).acmr := by
  show (0 : ℚ) ≤ ((cacheTrace c [] xs).count false : ℚ) /
    ((xs.length / 3 : ℕ) : ℚ)
  exact div_nonneg (Nat.cast_nonneg _) (Nat.cast_nonneg _)

/-- C2 amended: for threshold ≥ 1 the overdraw output's ACMR never exceeds
the input's ACMR times the threshold, and a candidate cluster order that
would violate the bound is rejected, leaving the Tipsify order unchanged.
(With threshold = 1 the output's ACMR can be strictly below the input's,
so it need not be exactly equal.) -/
theorem optimizeOverdrawTipsify_threshold_bound (indices : List ℕ)
    (positions : ℕ → ℚ × ℚ × ℚ) (vertex_count : ℕ) (clusters : List ℕ)
    (cache_size : ℕ) (threshold : ℚ) (ht : 1 ≤ threshold) :
    (analyzePostTransform (optimizeOverdrawTipsify indices positions
        vertex_count clusters cache_size threshold) vertex_count
        cache_size).acmr ≤
      (analyzePostTransform indices vertex_count cache_size).acmr *
        threshold ∧
    (¬ (analyzePostTransform (overdrawCandidate indices positions clusters)
          vertex_count cache_size).acmr ≤
        (analyzePostTransform indices vertex_count cache_size).acmr *
          threshold →
      optimizeOverdrawTipsify indices positions vertex_count clusters
        cache_size threshold = indices) := by
  unfold optimizeOverdrawTipsify
  by_cases h : (analyzePostTransform (overdrawCandidate indices positions
      clusters) vertex_count cache_size).acmr ≤
      (analyzePostTransform indices vertex_count cache_size).acmr * threshold
  · rw [if_pos h]
    exact ⟨h, fun hn => absurd h hn⟩
  · rw [if_neg h]
    refine ⟨?_, fun _ => rfl⟩
    exact le_mul_of_one_le_right (acmr_nonneg indices vertex_count cache_size) ht

end Meshopt

namespace Meshopt

/-- Positions making the overdraw candidate an accepted strict
improvement: the shared triangles sit at x = 0, the disjoint one at
x = 10. -/
def overdrawAcceptPositions : ℕ → ℚ × ℚ × ℚ :=
  fun v => (if v ≤ 2 then 0 else 10, 0, 0)

/-- Positions making the overdraw candidate violate the threshold: the
spatial sort tears two cache-friendly neighbouring clusters apart. -/
def overdrawRejectPositions : ℕ → ℚ × ℚ × ℚ :=
  fun v => (if v ≤ 2 then 0 else if v = 3 then 10 else 1, 0, 0)

/-- C2 fails as stated: with threshold = 1 the output's ACMR can be
strictly below the input's instead of exactly equal. On the mesh
[0,1,2 | 3,4,5 | 0,1,2] (clusters [0,1,2], cache 3) the accepted candidate
order [0,1,2 | 0,1,2 | 3,4,5] lowers the ACMR from 3 to 2. -/
theorem optimizeOverdrawTipsify_t1_improves :
    (analyzePostTransform [0, 1, 2, 3, 4, 5, 0, 1, 2] 6 3).acmr = 3 ∧
    (analyzePostTransform
        (optimizeOverdrawTipsify [0, 1, 2, 3, 4, 5, 0, 1, 2]
          overdrawAcceptPositions 6 [0, 1, 2] 3 1) 6 3).acmr = 2 ∧
    ¬ (analyzePostTransform
        (optimizeOverdrawTipsify [0, 1, 2, 3, 4, 5, 0, 1, 2]
          overdrawAcceptPositions 6 [0, 1, 2] 3 1) 6 3).acmr =
      (analyzePostTransform [0, 1, 2, 3, 4, 5, 0, 1, 2] 6 3).acmr := by
  have hin : (analyzePostTransform [0, 1, 2, 3, 4, 5, 0, 1, 2] 6 3).acmr
      = 3 := by
    rw [acmr_eval _ 6 3 9 3 (by decide) (by decide)]
    norm_num
  have hcand : overdrawCandidate [0, 1, 2, 3, 4, 5, 0, 1, 2]
      overdrawAcceptPositions [0, 1, 2] = [0, 1, 2, 0, 1, 2, 3, 4, 5] := by
    norm_num [overdrawCandidate, overdrawAcceptPositions, splitAtBoundaries,
      sortByCost, insertByCost, clusterCost, flattenTris, triangles, triVerts]
  have hcacmr : (analyzePostTransform [0, 1, 2, 0, 1, 2, 3, 4, 5] 6 3).acmr
      = 2 := by
    rw [acmr_eval _ 6 3 6 3 (by decide) (by decide)]
    norm_num
  have hout : optimizeOverdrawTipsify [0, 1, 2, 3, 4, 5, 0, 1, 2]
      overdrawAcceptPositions 6 [0, 1, 2] 3 1 = [0, 1, 2, 0, 1, 2, 3, 4, 5] := by
    unfold optimizeOverdrawTipsify
    rw [hcand, if_pos]
    rw [hcacmr, hin]
    norm_num
  refine ⟨hin, by rw [hout]; exact hcacmr, ?_⟩
  rw [hout, hcacmr, hin]
  norm_num

/-- Witness for `optimizeOverdrawTipsify_threshold_bound`: on the mesh
[0,1,2 | 0,1,3 | 4,5,6] the candidate order [0,1,2 | 4,5,6 | 0,1,3] would
raise the ACMR from 7/3 to 3, so at threshold 1 it is rejected and the
input order is returned. -/
theorem optimizeOverdrawTipsify_threshold_bound_witness :
    (analyzePostTransform
        (optimizeOverdrawTipsify [0, 1, 2, 0, 1, 3, 4, 5, 6]
          overdrawRejectPositions 7 [0, 1, 2] 3 1) 7 3).acmr ≤
      (analyzePostTransform [0, 1, 2, 0, 1, 3, 4, 5, 6] 7 3).acmr * 1 ∧
    optimizeOverdrawTipsify [0, 1, 2, 0, 1, 3, 4, 5, 6]
        overdrawRejectPositions 7 [0, 1, 2] 3 1 =
      [0, 1, 2, 0, 1, 3, 4, 5, 6] := by
  have h := optimizeOverdrawTipsify_threshold_bound
    [0, 1, 2, 0, 1, 3, 4, 5, 6] overdrawRejectPositions 7 [0, 1, 2] 3 1
    (by norm_num)
  have hcand : overdrawCandidate [0, 1, 2, 0, 1, 3, 4, 5, 6]
      overdrawRejectPositions [0, 1, 2] = [0, 1, 2, 4, 5, 6, 0, 1, 3] := by
    norm_num [overdrawCandidate, overdrawRejectPositions, splitAtBoundaries,
      sortByCost, insertByCost, clusterCost, flattenTris, triangles, triVerts]
  have hneg : ¬ (analyzePostTransform
      (overdrawCandidate [0, 1, 2, 0, 1, 3, 4, 5, 6]
        overdrawRejectPositions [0, 1, 2]) 7 3).acmr ≤
      (analyzePostTransform [0, 1, 2, 0, 1, 3, 4, 5, 6] 7 3).acmr * 1 := by
    rw [hcand, acmr_eval _ 7 3 9 3 (by decide) (by decide),
      acmr_eval _ 7 3 7 3 (by decide) (by decide)]
    norm_num
  exact ⟨h.1, h.2 hneg⟩

end Meshopt

namespace Meshopt

/-- C6 fails on the code as modelled: the greedy optimizers can increase
the ACMR of an already well-ordered mesh. On the shared-vertex mesh
[0,1,2 | 1,2,3 | 0,3,4] with vertex_count 5 and cache_size 3 the identity
order has ACMR 2, but the Forsyth reorder has ACMR 3 and the Tipsify
reorder has ACMR 8/3. -/
theorem optimize_acmr_not_bounded :
    3 ≤ 3 ∧
    (analyzePostTransform [0, 1, 2, 1, 2, 3, 0, 3, 4] 5 3).acmr = 2 ∧
    (analyzePostTransform
        (optimizePostTransformTomF [0, 1, 2, 1, 2, 3, 0, 3, 4] 5 3) 5 3).acmr
      = 3 ∧
    (analyzePostTransform
        (optimizePostTransformTipsify [0, 1, 2, 1, 2, 3, 0, 3, 4] 5 3).1
        5 3).acmr = 8 / 3 ∧
    ¬ (analyzePostTransform
        (optimizePostTransformTomF [0, 1, 2, 1, 2, 3, 0, 3, 4] 5 3) 5 3).acmr
      ≤ (analyzePostTransform [0, 1, 2, 1, 2, 3, 0, 3, 4] 5 3).acmr ∧
    ¬ (analyzePostTransform
        (optimizePostTransformTipsify [0, 1, 2, 1, 2, 3, 0, 3, 4] 5 3).1
        5 3).acmr
      ≤ (analyzePostTransform [0, 1, 2, 1, 2, 3, 0, 3, 4] 5 3).acmr := by
  have h1 : (analyzePostTransform [0, 1, 2, 1, 2, 3, 0, 3, 4] 5 3).acmr
      = 2 := by
    rw [acmr_eval _ 5 3 6 3 (by decide) (by decide)]
    norm_num
  have h2 : (analyzePostTransform
      (optimizePostTransformTomF [0, 1, 2, 1, 2, 3, 0, 3, 4] 5 3) 5 3).acmr
      = 3 := by
    rw [acmr_eval _ 5 3 9 3 (by decide) (by decide)]
    norm_num
  have h3 : (analyzePostTransform
      (optimizePostTransformTipsify [0, 1, 2, 1, 2, 3, 0, 3, 4] 5 3).1
      5 3).acmr = 8 / 3 := by
    rw [acmr_eval _ 5 3 8 3 (by decide) (by decide)]
    norm_num
  refine ⟨le_refl 3, h1, h2, h3, ?_, ?_⟩
  · rw [h1, h2]; norm_num
  · rw [h1, h3]; norm_num

/-- C6 amended: the universal ACMR bound fails (see
`optimize_acmr_not_bounded`), but on the spec's two-triangle shared-edge
mesh [0,1,2, 2,1,3] with vertex_count 4 and cache_size 4 both optimizers
return the buffer unchanged, so the ACMR does not increase there. -/
theorem optimize_acmr_shared_edge_example :
    optimizePostTransformTomF [0, 1, 2, 2, 1, 3] 4 4 = [0, 1, 2, 2, 1, 3] ∧
    (optimizePostTransformTipsify [0, 1, 2, 2, 1, 3] 4 4).1
      = [0, 1, 2, 2, 1, 3] ∧
    (analyzePostTransform
        (optimizePostTransformTomF [0, 1, 2, 2, 1, 3] 4 4) 4 4).acmr
      ≤ (analyzePostTransform [0, 1, 2, 2, 1, 3] 4 4).acmr ∧
    (analyzePostTransform
        (optimizePostTransformTipsify [0, 1, 2, 2, 1, 3] 4 4).1 4 4).acmr
      ≤ (analyzePostTransform [0, 1, 2, 2, 1, 3] 4 4).acmr := by
  have h1 : optimizePostTransformTomF [0, 1, 2, 2, 1, 3] 4 4
      = [0, 1, 2, 2, 1, 3] := by decide
  have h2 : (optimizePostTransformTipsify [0, 1, 2, 2, 1, 3] 4 4).1
      = [0, 1, 2, 2, 1, 3] := by decide
  exact ⟨h1, h2, by rw [h1], by rw [h2]⟩

end Meshopt

namespace Meshopt

/-! ### Index-width overloads -/

/-- Modelled from the spec (§6 / §9, bodies absent from src/): the two
index-width overloads of every public operation share one generic
implementation and differ only in reading their index values as `bits`-bit
unsigned integers; an overload therefore sees each value reduced modulo
`2 ^ bits`. -/
def idxWidth (bits : ℕ) (xs : List ℕ) : List ℕ := xs.map (fun x => x % 2 ^ bits)

theorem idxWidth_eq_self (bits : ℕ) :
    ∀ xs : List ℕ, (∀ i ∈ xs, i < 2 ^ bits) → idxWidth bits xs = xs := by
  intro xs
  induction xs with
  | nil => intro _; rfl
  | cons x xs ih =>
    intro h
    have hx : x % 2 ^ bits = x :=
      Nat.mod_eq_of_lt (h x (List.mem_cons_self _ _))
    show x % 2 ^ bits :: idxWidth bits xs = x :: xs
    rw [hx, ih (fun i hi => h i (List.mem_cons_of_mem _ hi))]

/-- C8: on any input whose index values fit in 16 bits, the 16-bit and
32-bit overloads of every public operation agree: statistics, reordered
indices, clusters, remapped indices, and compacted vertex buffer coincide. -/
theorem index_width_equivalence {V : Type} (dflt : V) (vertices : List V)
    (indices : List ℕ) (vertex_count cache_size : ℕ)
    (positions : ℕ → ℚ × ℚ × ℚ) (clusters : List ℕ) (threshold : ℚ)
    (h : ∀ i ∈ indices, i < 2 ^ 16) :
    analyzePostTransform (idxWidth 16 indices) vertex_count cache_size =
      analyzePostTransform (idxWidth 32 indices) vertex_count cache_size ∧
    optimizePostTransformTomF (idxWidth 16 indices) vertex_count cache_size =
      optimizePostTransformTomF (idxWidth 32 indices) vertex_count
        cache_size ∧
    optimizePostTransformTipsify (idxWidth 16 indices) vertex_count
        cache_size =
      optimizePostTransformTipsify (idxWidth 32 indices) vertex_count
        cache_size ∧
    optimizeOverdrawTipsify (idxWidth 16 indices) positions vertex_count
        clusters cache_size threshold =
      optimizeOverdrawTipsify (idxWidth 32 indices) positions vertex_count
        clusters cache_size threshold ∧
    optimizePreTransform dflt vertices (idxWidth 16 indices) =
      optimizePreTransform dflt vertices (idxWidth 32 indices) := by
  have h32 : ∀ i ∈ indices, i < 2 ^ 32 := by
    intro i hi
    exact lt_trans (h i hi) (by norm_num)
  rw [idxWidth_eq_self 16 indices h, idxWidth_eq_self 32 indices h32]
  exact ⟨rfl, rfl, rfl, rfl, rfl⟩

/-- Witness for `index_width_equivalence` at a concrete input. -/
theorem index_width_equivalence_witness :
    analyzePostTransform (idxWidth 16 [0, 1, 2, 2, 1, 3]) 4 4 =
      analyzePostTransform (idxWidth 32 [0, 1, 2, 2, 1, 3]) 4 4 ∧
    optimizePostTransformTomF (idxWidth 16 [0, 1, 2, 2, 1, 3]) 4 4 =
      optimizePostTransformTomF (idxWidth 32 [0, 1, 2, 2, 1, 3]) 4 4 := by
  have h := index_width_equivalence (0 : ℕ) [10, 20, 30, 40]
    [0, 1, 2, 2, 1, 3] 4 4 (fun _ => (0, 0, 0)) [0] 1
    (by intro i hi; fin_cases hi <;> norm_num)
  exact ⟨h.1, h.2.1⟩

end Meshopt
